import Mathlib

/-!
Verification development for the puzzle-video generator's layout and
animation-timeline engine (`puzzle_video_generator.py`).

The Python code works on machine integers and IEEE floats; here every
numeric value is modelled exactly: Python `int` as `ℤ`, Python `float`
arithmetic as exact arithmetic in `ℚ` (every float appearing in the
engine is produced from small integer inputs, far from any rounding
boundary that could flip an `int()` truncation or a comparison), Python
`int(x)` as truncation toward zero, Python `//` as floor division
(`Int.ediv`), and `random.randint`/`random.choice` as explicit streams
of drawn values `draw : ℕ → ℤ`, consumed in program order, constrained
by hypotheses to the intervals the program passes to `randint`.
-/

/-- Python `int(q)`: truncation toward zero. -/
def pyInt (q : ℚ) : ℤ :=
  if q < 0 then -⌊-q⌋ else ⌊q⌋

/-- Python 3 `round(q)` to an integer: round half to even (banker's rounding). -/
def pyRound (q : ℚ) : ℤ :=
  if q - (⌊q⌋ : ℚ) < 1/2 then ⌊q⌋
  else if (1/2 : ℚ) < q - (⌊q⌋ : ℚ) then ⌊q⌋ + 1
  else if ⌊q⌋ % 2 = 0 then ⌊q⌋ else ⌊q⌋ + 1

/-- Segment size used by `_generate_alignment_frames`:
`segment_size = self.total_frames // (num_alignments + 1)`. -/
def segmentSize (totalFrames : ℤ) (numAlignments : ℕ) : ℤ :=
  totalFrames / ((numAlignments : ℤ) + 1)

/-- The unsorted per-segment draws of `_generate_alignment_frames`: the loop body
appends one `random.randint(i*segment_size - segment_size//4, i*segment_size + segment_size//4)`
per `i in range(1, num_alignments + 1)`; `draw j` models the draw for `i = j+1`. -/
def rawAlignmentDraws (numAlignments : ℕ) (draw : ℕ → ℤ) : List ℤ :=
  (List.range numAlignments).map draw

/-- The interval constraint `random.randint` imposes on the modelled draw stream in
`_generate_alignment_frames` (a `randint(lo, hi)` result lies in `[lo, hi]`). -/
def drawsInRandintRange (totalFrames : ℤ) (numAlignments : ℕ) (draw : ℕ → ℤ) : Prop :=
  ∀ j < numAlignments,
    ((j : ℤ) + 1) * segmentSize totalFrames numAlignments
        - segmentSize totalFrames numAlignments / 4 ≤ draw j ∧
      draw j ≤ ((j : ℤ) + 1) * segmentSize totalFrames numAlignments
        + segmentSize totalFrames numAlignments / 4

instance (T : ℤ) (n : ℕ) (draw : ℕ → ℤ) : Decidable (drawsInRandintRange T n draw) := by
  unfold drawsInRandintRange
  infer_instance

/-- `_generate_alignment_frames`: returns `[]` for zero alignments, otherwise the
sorted list of the per-segment draws (Python's `sorted`; on a total order on `ℤ`
the sorted permutation is unique, so insertion sort is extensionally identical). -/
def generateAlignmentFrames (totalFrames : ℤ) (numAlignments : ℕ) (draw : ℕ → ℤ) :
    List ℤ :=
  if numAlignments = 0 then []
  else List.insertionSort (· ≤ ·) (rawAlignmentDraws numAlignments draw)

/-- The `num_alignments` range check at the top of `generate_puzzle_video`
(line 124): `if num_alignments is not None and (num_alignments < 1 or num_alignments > 20): raise ValueError(...)`. -/
def checkNumAlignments (numAlignments : Option ℤ) : Except String (Option ℤ) :=
  match numAlignments with
  | none => .ok none
  | some v =>
    if v < 1 ∨ 20 < v then .error "num_alignments must be between 1 and 20"
    else .ok (some v)

/-- Scaled-image layout computed by `generate_puzzle_video` (lines 205-229):
width-derived scale from the coverage percentage, recomputed from height when
`scaled_img_height > bg_height * 0.95`, then centered with floor division. -/
structure Layout where
  scaledW : ℤ
  scaledH : ℤ
  offX : ℤ
  offY : ℤ
deriving DecidableEq

/-- Geometry planning of `generate_puzzle_video` (lines 205-229). -/
def computeLayout (bgW bgH imgW imgH coverage : ℤ) : Layout :=
  let coverageDec : ℚ := (coverage : ℚ) / 100
  let targetW : ℤ := pyInt ((bgW : ℚ) * coverageDec)
  let scale : ℚ := (targetW : ℚ) / (imgW : ℚ)
  let sw := pyInt ((imgW : ℚ) * scale)
  let sh := pyInt ((imgH : ℚ) * scale)
  if (bgH : ℚ) * (95/100) < (sh : ℚ) then
    let scale2 : ℚ := ((bgH : ℚ) * (95/100)) / (imgH : ℚ)
    let sw2 := pyInt ((imgW : ℚ) * scale2)
    let sh2 := pyInt ((imgH : ℚ) * scale2)
    ⟨sw2, sh2, (bgW - sw2) / 2, (bgH - sh2) / 2⟩
  else
    ⟨sw, sh, (bgW - sw) / 2, (bgH - sh) / 2⟩

/-- Cut-piece size of `generate_puzzle_video` (lines 234-244):
`base = int(min(sw, sh) * cut_percentage/100)`, `cs = int(base * piece_scale)`,
then `cs = max(50, cs)` when `cs < 50`, else `min(sw,sh)//2` when it exceeds that. -/
def computeCutSize (sw sh cutPct : ℤ) (pieceScale : ℚ) : ℤ :=
  let m := min sw sh
  let base := pyInt ((m : ℚ) * ((cutPct : ℚ) / 100))
  let cs := pyInt ((base : ℚ) * pieceScale)
  if cs < 50 then max 50 cs
  else if m / 2 < cs then m / 2
  else cs

/-- Modelled from the spec: the claimed cut-size formula
`round(min(scaled_width, scaled_height) * cut_percentage/100 * piece_scale)`
clamped into `[50, min(scaled_width, scaled_height)/2]`, as stated in the spec;
kept separate from `computeCutSize` (translated from the source) for comparison. -/
def specCutSize (sw sh cutPct : ℤ) (pieceScale : ℚ) : ℤ :=
  let m := min sw sh
  min (max (pyRound ((m : ℚ) * ((cutPct : ℚ) / 100) * pieceScale)) 50) (m / 2)

/-- One margin in pixels (lines 247-250): `int(scaled_dim * (margin_pct / 100))`. -/
def marginPx (sdim m : ℤ) : ℤ :=
  pyInt ((sdim : ℚ) * ((m : ℚ) / 100))

/-- Safe-zone extent along one axis (lines 253-254):
`available = scaled_dim - margin1_px - margin2_px`. -/
def availableSize (sdim m1 m2 : ℤ) : ℤ :=
  sdim - marginPx sdim m1 - marginPx sdim m2

/-- A keyframe as produced by the movement generators:
`{'frame': int, 'x': int, 'y': int, 'rotation': int}`. -/
structure Keyframe where
  frame : ℤ
  x : ℤ
  y : ℤ
  rot : ℤ
deriving DecidableEq

/-- Frame column of a keyframe list. -/
def framesOf (l : List Keyframe) : List ℤ :=
  l.map (·.frame)

/-- Failure modes of evaluating the FFmpeg expression built by
`_build_interpolation_expr`: a division by zero inside the branch actually
taken (FFmpeg's `if` evaluates branches lazily), or a syntactically invalid
expression (fewer than 3 keyframes leave the generated string unbalanced:
the `i == 0` branch always emits a guarded segment with a trailing comma and
`')' * (len(keyframes) - 2)` closes none of it). -/
inductive EvalErr
  | divZero
  | malformed
deriving DecidableEq

/-- Keyframe time in seconds: `t_i = frame_i / fps`. -/
def kfTime (fps : ℤ) (k : Keyframe) : ℚ :=
  (k.frame : ℚ) / (fps : ℚ)

/-- One linear-interpolation segment `v1 + ((v2-v1)/(t2-t1))*(t-t1)` of the
generated expression, with the division by zero made explicit. -/
def segVal (fps : ℤ) (p : Keyframe → ℤ) (k1 k2 : Keyframe) (t : ℚ) :
    Except EvalErr ℚ :=
  if kfTime fps k2 - kfTime fps k1 = 0 then .error .divZero
  else
    .ok ((p k1 : ℚ) +
      (((p k2 : ℚ) - (p k1 : ℚ)) / (kfTime fps k2 - kfTime fps k1)) *
        (t - kfTime fps k1))

/-- The chain of guarded segments after the first one: each non-final segment
is wrapped in `if(lt(t,t2), ..., ` and the final segment (`i == len-2`) is
emitted unguarded, extrapolating beyond its right endpoint. -/
def evalTail (fps : ℤ) (p : Keyframe → ℤ) : Keyframe → List Keyframe → ℚ → Except EvalErr ℚ
  | _, [], _ => .error .malformed
  | k1, [k2], t => segVal fps p k1 k2 t
  | k1, k2 :: k3 :: rest, t =>
    if t < kfTime fps k2 then segVal fps p k1 k2 t
    else evalTail fps p k2 (k3 :: rest) t

/-- Evaluation semantics of the expression string built by
`_build_interpolation_expr` for one parameter (`x`, `y` or `rotation`):
nested `if(lt(t,t2), seg_i, ...)` with an unguarded last segment. With fewer
than 3 keyframes the built string is unbalanced (the `i == 0` branch takes
precedence over the `i == len-2` branch, and no closing parentheses are
appended), so FFmpeg cannot parse it: modelled as `EvalErr.malformed`. -/
def evalInterp (fps : ℤ) (p : Keyframe → ℤ) : List Keyframe → ℚ → Except EvalErr ℚ
  | k1 :: k2 :: k3 :: rest, t =>
    if t < kfTime fps k2 then segVal fps p k1 k2 t
    else evalTail fps p k2 (k3 :: rest) t
  | _, _ => .error .malformed

/-- First generated segment has distinct endpoint frames (used to rule out a
division by zero when evaluating times before the second keyframe). -/
def firstSegmentProper : List Keyframe → Bool
  | a :: b :: _ => decide (a.frame ≠ b.frame)
  | _ => true

/-- Last generated segment has distinct endpoint frames (the unguarded final
segment of the expression divides by `t_n - t_(n-1)` whenever evaluated). -/
def lastSegmentProper : List Keyframe → Bool
  | a :: b :: rest =>
    match rest with
    | [] => decide (a.frame ≠ b.frame)
    | c :: rest2 => lastSegmentProper (b :: c :: rest2)
  | _ => true

/-- Shared context of the movement generators: canvas dimensions, cut size,
alignment target (`origin_x`, `origin_y`), fps, total frames and hold time. -/
structure MoveCtx where
  totalFrames : ℤ
  fps : ℤ
  width : ℤ
  height : ℤ
  pieceSize : ℤ
  originX : ℤ
  originY : ℤ
  holdTime : ℚ
deriving DecidableEq

/-- Hold duration in frames: `max(int(self.fps * alignment_hold_time), 1)`. -/
def holdFramesOf (c : MoveCtx) : ℤ :=
  max (pyInt ((c.fps : ℚ) * c.holdTime)) 1

/-- The `num_alignments == 0` branch of `_generate_chaotic_movement`:
3 vertical sweeps over `total_frames // 3` frames each, alternating direction,
each at one random x (`draw i`); the loop of 3 iterations is unrolled. -/
def chaoticNoAlign (c : MoveCtx) (draw : ℕ → ℤ) : List Keyframe :=
  let framesPerSweep := c.totalFrames / 3
  let bottomY := c.height - c.pieceSize
  [⟨0, draw 0, 0, 0⟩, ⟨framesPerSweep, draw 0, bottomY, 0⟩,
   ⟨framesPerSweep, draw 1, bottomY, 0⟩, ⟨2 * framesPerSweep, draw 1, 0, 0⟩,
   ⟨2 * framesPerSweep, draw 2, 0, 0⟩, ⟨c.totalFrames - 1, draw 2, bottomY, 0⟩]

/-- The `i in range(num_alignments + 1)` loop of `_generate_chaotic_movement`,
recursing over the remaining alignment frames; `i` is the segment index and
`draw i` the segment's random `sweep_x`. The final segment (empty list) emits
the start keyframe, a mid keyframe when `mid_frame` is truthy (non-zero), and
the end keyframe at `total_frames - 1`; other segments emit start, an approach
keyframe when `alignment_frame > 5`, arrival, hold, and segment end. -/
def chaoticAux (c : MoveCtx) (framesPerSegment : ℤ) (draw : ℕ → ℤ) :
    ℕ → List ℤ → List Keyframe
  | i, [] =>
    let sweepX := draw i
    let startY := if i % 2 = 0 then 0 else c.height - c.pieceSize
    let endY := if i % 2 = 0 then c.height - c.pieceSize else 0
    let startF := (i : ℤ) * framesPerSegment
    let mid := startF + (c.totalFrames - 1 - startF) / 2
    ⟨startF, sweepX, startY, 0⟩ ::
      ((if mid ≠ 0 then [⟨mid, sweepX, startY + (endY - startY) / 2, 0⟩] else []) ++
        [⟨c.totalFrames - 1, sweepX, endY, 0⟩])
  | i, a :: rest =>
    let sweepX := draw i
    let startY := if i % 2 = 0 then 0 else c.height - c.pieceSize
    let endY := if i % 2 = 0 then c.height - c.pieceSize else 0
    let startF := (i : ℤ) * framesPerSegment
    let hf := holdFramesOf c
    (⟨startF, sweepX, startY, 0⟩ ::
      ((if 5 < a then [⟨a - 5, c.originX, c.originY, 0⟩] else []) ++
        [⟨a, c.originX, c.originY, 0⟩, ⟨a + hf, c.originX, c.originY, 0⟩,
         ⟨((i : ℤ) + 1) * framesPerSegment - 1, sweepX, endY, 0⟩])) ++
      chaoticAux c framesPerSegment draw (i + 1) rest

/-- `_generate_chaotic_movement` (lines 556-683). -/
def chaoticKeyframes (c : MoveCtx) (af : List ℤ) (draw : ℕ → ℤ) : List Keyframe :=
  if af.isEmpty then chaoticNoAlign c draw
  else chaoticAux c (c.totalFrames / ((af.length : ℤ) + 1)) draw 0 af

/-- The loop of `_generate_rotating_movement`, recursing over the remaining
alignment frames with the accumulated frame counter and rotation. Iteration `i`
draws its random position (`draw (3*i)`, `draw (3*i+1)`) and, at the loop's
end, its rotation increment `randint(90, 270)` (`draw (3*i+2)`); exhaustion
emits the final pose at `total_frames - 1` with one extra `randint(90, 180)`. -/
def rotatingAux (c : MoveCtx) (framesPerSegment : ℤ) (draw : ℕ → ℤ) :
    ℕ → List ℤ → ℤ → ℤ → List Keyframe
  | i, [], _, curRot =>
    [⟨c.totalFrames - 1, draw (3 * i), draw (3 * i + 1), curRot + draw (3 * i + 2)⟩]
  | i, a :: rest, curFrame, curRot =>
    let hf := holdFramesOf c
    (⟨curFrame, draw (3 * i), draw (3 * i + 1), curRot⟩ ::
      ((if 5 < a then [⟨a - 5, c.originX, c.originY, 0⟩] else []) ++
        [⟨a, c.originX, c.originY, 0⟩, ⟨a + hf, c.originX, c.originY, 0⟩])) ++
      rotatingAux c framesPerSegment draw (i + 1) rest
        (min (curFrame + framesPerSegment) (c.totalFrames - 1))
        (curRot + draw (3 * i + 2))

/-- `_generate_rotating_movement` (lines 685-743). -/
def rotatingKeyframes (c : MoveCtx) (af : List ℤ) (draw : ℕ → ℤ) : List Keyframe :=
  let framesPerSegment :=
    if af.length = 0 then c.totalFrames
    else c.totalFrames / ((af.length : ℤ) + 1)
  rotatingAux c framesPerSegment draw 0 af 0 0

/-- Corner cycle of `_generate_zigzag_movement`, indexed by `i % 4`:
top-left, top-right, bottom-right, bottom-left. -/
def zigzagCorner (c : MoveCtx) : ℕ → ℤ × ℤ
  | 0 => (0, 0)
  | 1 => (c.width - c.pieceSize, 0)
  | 2 => (c.width - c.pieceSize, c.height - c.pieceSize)
  | _ => (0, c.height - c.pieceSize)

/-- The loop of `_generate_zigzag_movement`, recursing over the remaining
alignment frames with the accumulated frame counter; exhaustion emits the
final corner (`num_alignments % 4`) at `total_frames - 1`. -/
def zigzagAux (c : MoveCtx) (framesPerSegment : ℤ) :
    ℕ → List ℤ → ℤ → List Keyframe
  | i, [], _ =>
    let corner := zigzagCorner c (i % 4)
    [⟨c.totalFrames - 1, corner.1, corner.2, 0⟩]
  | i, a :: rest, curFrame =>
    let corner := zigzagCorner c (i % 4)
    let hf := holdFramesOf c
    (⟨curFrame, corner.1, corner.2, 0⟩ ::
      ((if 5 < a then [⟨a - 5, c.originX, c.originY, 0⟩] else []) ++
        [⟨a, c.originX, c.originY, 0⟩, ⟨a + hf, c.originX, c.originY, 0⟩])) ++
      zigzagAux c framesPerSegment (i + 1) rest
        (min (curFrame + framesPerSegment) (c.totalFrames - 1))

/-- `_generate_zigzag_movement` (lines 745-819). -/
def zigzagKeyframes (c : MoveCtx) (af : List ℤ) : List Keyframe :=
  let framesPerSegment :=
    if af.length = 0 then c.totalFrames
    else c.totalFrames / ((af.length : ℤ) + 1)
  zigzagAux c framesPerSegment 0 af 0

/-- The three movement styles dispatched by `_generate_movement_keyframes`. -/
inductive MovementStyle
  | chaotic
  | rotating
  | zigzag
deriving DecidableEq

/-- `_generate_movement_keyframes` (lines 542-554). -/
def movementKeyframes (style : MovementStyle) (c : MoveCtx) (af : List ℤ)
    (draw : ℕ → ℤ) : List Keyframe :=
  match style with
  | .chaotic => chaoticKeyframes c af draw
  | .rotating => rotatingKeyframes c af draw
  | .zigzag => zigzagKeyframes c af

/-- Spacing condition on alignment frames under which the emitted keyframes
stay inside their segments: each `alignment_frames[i]` admits the approach
keyframe after the segment start (`i*F + 5 ≤ a_i`) and the hold keyframe
before the segment end (`a_i + hold_frames ≤ (i+1)*F - 1`). -/
def wellSpacedFrom (framesPerSegment holdFrames : ℤ) : ℕ → List ℤ → Bool
  | _, [] => true
  | i, a :: rest =>
    decide ((i : ℤ) * framesPerSegment + 5 ≤ a) &&
      decide (a + holdFrames ≤ ((i : ℤ) + 1) * framesPerSegment - 1) &&
      wellSpacedFrom framesPerSegment holdFrames (i + 1) rest

/-- Spacing condition instantiated with the generators' segment size and hold. -/
def wellSpaced (c : MoveCtx) (af : List ℤ) : Bool :=
  wellSpacedFrom (c.totalFrames / ((af.length : ℤ) + 1)) (holdFramesOf c) 0 af

/-! ## Helper lemmas -/

/-- Python `int()` agrees with the floor on nonnegative rationals. -/
theorem pyInt_eq_floor (q : ℚ) (h : 0 ≤ q) : pyInt q = ⌊q⌋ := by
  rw [pyInt, if_neg (not_lt.mpr h)]

/-- Basic bounds on the scheduler's segment size `S = total_frames // (n+1)`. -/
theorem segmentSize_facts (T : ℤ) (n : ℕ) (hT : (n : ℤ) + 1 ≤ T) :
    1 ≤ segmentSize T n ∧ ((n : ℤ) + 1) * segmentSize T n ≤ T := by
  have hpos : (0 : ℤ) < (n : ℤ) + 1 := by positivity
  constructor
  · rw [segmentSize, Int.le_ediv_iff_mul_le hpos]
    omega
  · have h := Int.ediv_add_emod T ((n : ℤ) + 1)
    have h2 := Int.emod_nonneg T (show ((n : ℤ) + 1) ≠ 0 by omega)
    rw [segmentSize]
    omega

/-- The unsorted scheduler draws are already strictly increasing: consecutive
jitter windows `[(j+1)S - S//4, (j+1)S + S//4]` are disjoint once `S ≥ 1`. -/
theorem rawAlignmentDraws_pairwise (T : ℤ) (n : ℕ) (draw : ℕ → ℤ)
    (hT : (n : ℤ) + 1 ≤ T) (hd : drawsInRandintRange T n draw) :
    List.Pairwise (· < ·) (rawAlignmentDraws n draw) := by
  obtain ⟨hS1, -⟩ := segmentSize_facts T n hT
  set S := segmentSize T n with hS
  have hq := Int.ediv_add_emod S 4
  have hq0 := Int.emod_nonneg S (show (4 : ℤ) ≠ 0 by omega)
  have hSd : 0 ≤ S / 4 := Int.ediv_nonneg (by omega) (by omega)
  rw [rawAlignmentDraws, List.pairwise_iff_get]
  intro i j hij
  have hjn : (j : ℕ) < n := by
    have := j.isLt
    simpa using this
  have hin : (i : ℕ) < n := by
    have := i.isLt
    simpa using this
  have hgi : (List.map draw (List.range n)).get i = draw ((i : ℕ)) := by
    simp
  have hgj : (List.map draw (List.range n)).get j = draw ((j : ℕ)) := by
    simp
  rw [hgi, hgj]
  obtain ⟨-, hiu⟩ := hd (i : ℕ) hin
  obtain ⟨hjl, -⟩ := hd (j : ℕ) hjn
  rw [← hS] at hiu hjl
  have hij' : ((i : ℕ) : ℤ) + 1 ≤ ((j : ℕ) : ℤ) := by
    have : (i : ℕ) < (j : ℕ) := hij
    omega
  have hmono : (((i : ℕ) : ℤ) + 2) * S ≤ (((j : ℕ) : ℤ) + 1) * S :=
    mul_le_mul_of_nonneg_right (by omega) (by omega)
  have hsplit : (((i : ℕ) : ℤ) + 2) * S = (((i : ℕ) : ℤ) + 1) * S + S := by ring
  linarith

/-! ## C2: alignment scheduler output -/

/-- C2 (counterexample): for `total_frames = 1` and `num_alignments = 2` the
segment size is `0`, `randint` is called on the degenerate window `[0, 0]`
both times (the draw stream `fun _ => 0` is the only one permitted by
`drawsInRandintRange`), and the scheduler returns `[0, 0]`, which is not
strictly increasing — refuting the claim for every `total_frames ≥ 1`. -/
theorem generateAlignmentFrames_cex :
    drawsInRandintRange 1 2 (fun _ => 0) ∧
      ¬ List.Pairwise (· < ·) (generateAlignmentFrames 1 2 (fun _ => 0)) := by
  decide

/-- C2 (amended): provided additionally `total_frames ≥ num_alignments + 1`
(so that the segment size is at least 1), the scheduler returns exactly
`num_alignments` strictly increasing frame indices inside `[0, total_frames)`. -/
theorem generateAlignmentFrames_correct (T : ℤ) (n : ℕ) (draw : ℕ → ℤ)
    (hn : n ≤ 20) (hT : (n : ℤ) + 1 ≤ T)
    (hd : drawsInRandintRange T n draw) :
    (generateAlignmentFrames T n draw).length = n ∧
      List.Pairwise (· < ·) (generateAlignmentFrames T n draw) ∧
      ∀ f ∈ generateAlignmentFrames T n draw, 0 ≤ f ∧ f < T := by
  by_cases h0 : n = 0
  · subst h0
    simp [generateAlignmentFrames]
  · rw [generateAlignmentFrames, if_neg h0]
    have hperm := List.perm_insertionSort (α := ℤ) (· ≤ ·) (rawAlignmentDraws n draw)
    have hsorted := List.sorted_insertionSort (α := ℤ) (· ≤ ·) (rawAlignmentDraws n draw)
    have hpw := rawAlignmentDraws_pairwise T n draw hT hd
    have hnodup : (rawAlignmentDraws n draw).Nodup := hpw.imp (fun h => ne_of_lt h)
    refine ⟨?_, ?_, ?_⟩
    · rw [hperm.length_eq, rawAlignmentDraws, List.length_map, List.length_range]
    · have hnd2 : (List.insertionSort (· ≤ ·) (rawAlignmentDraws n draw)).Nodup :=
        hperm.symm.nodup hnodup
      exact (List.Pairwise.and hsorted hnd2).imp (fun h => lt_of_le_of_ne h.1 h.2)
    · intro f hf
      have hfr : f ∈ rawAlignmentDraws n draw := hperm.mem_iff.mp hf
      rw [rawAlignmentDraws] at hfr
      obtain ⟨j, hj, rfl⟩ := List.mem_map.mp hfr
      rw [List.mem_range] at hj
      obtain ⟨hlo, hhi⟩ := hd j hj
      obtain ⟨hS1, hStot⟩ := segmentSize_facts T n hT
      set S := segmentSize T n with hS
      have hq := Int.ediv_add_emod S 4
      have hq0 := Int.emod_nonneg S (show (4 : ℤ) ≠ 0 by omega)
      have hSd : 0 ≤ S / 4 := Int.ediv_nonneg (by omega) (by omega)
      have hmul1 : 1 * S ≤ ((j : ℤ) + 1) * S :=
        mul_le_mul_of_nonneg_right (by omega) (by omega)
      have hjn : (j : ℤ) + 1 ≤ (n : ℤ) := by omega
      have hmul2 : ((j : ℤ) + 1) * S ≤ (n : ℤ) * S :=
        mul_le_mul_of_nonneg_right hjn (by omega)
      have hring : ((n : ℤ) + 1) * S = (n : ℤ) * S + S := by ring
      constructor
      · linarith
      · linarith

/-- C2 (witness): the amended theorem applied at `total_frames = 360`,
`num_alignments = 3` with the draws `[90, 180, 270]` (each inside its
`randint` window `[(j+1)*90 - 22, (j+1)*90 + 22]`). -/
theorem generateAlignmentFrames_correct_witness :
    (generateAlignmentFrames 360 3 (fun j => 90 * ((j : ℤ) + 1))).length = 3 ∧
      List.Pairwise (· < ·) (generateAlignmentFrames 360 3 (fun j => 90 * ((j : ℤ) + 1))) :=
  ⟨(generateAlignmentFrames_correct 360 3 (fun j => 90 * ((j : ℤ) + 1))
      (by decide) (by decide) (by decide)).1,
   (generateAlignmentFrames_correct 360 3 (fun j => 90 * ((j : ℤ) + 1))
      (by decide) (by decide) (by decide)).2.1⟩

/-! ## C3: geometry example scenario -/

/-- C3 (confirmed): for a 1080x1920 canvas, an 800x1000 source image and 80%
coverage, the width-derived scale gives `target_width = int(1080*0.8) = 864`,
`scale = 864/800`, `scaled = 864x1080`; the height rule does not trigger
(`1080 ≤ 1920*0.95 = 1824`), and floor-division centering gives the offset
`((1080-864)//2, (1920-1080)//2) = (108, 420)` — exactly as the claim states. -/
theorem computeLayout_example :
    computeLayout 1080 1920 800 1000 80 = ⟨864, 1080, 108, 420⟩ := by
  norm_num [computeLayout, pyInt, Layout.mk.injEq]

/-! ## C5: cut-piece size -/

/-- C5 (counterexample): with scaled dimensions 999x999 (≥ 200), cut
percentage 20 and piece scale 1, the code truncates `int(999 * 0.2) = 199`
while the claimed formula rounds `round(999 * 0.2 * 1.0) = round(199.8) = 200`
(no clamping on either side), so the claimed equality fails. -/
theorem computeCutSize_cex :
    computeCutSize 999 999 20 1 = 199 ∧ specCutSize 999 999 20 1 = 200 ∧
      computeCutSize 999 999 20 1 ≠ specCutSize 999 999 20 1 := by
  norm_num [computeCutSize, specCutSize, pyInt, pyRound]

/-- C5 (amended): for scaled dimensions of at least 200px the computed cut
size equals `int(int(min(sw,sh) * cut_percentage/100) * piece_scale)` — two
truncations, not one rounding — clamped into `[50, min(sw,sh)//2]`, and it
always lands inside that interval (the code only warns when clamping). -/
theorem computeCutSize_clamped (sw sh cutPct : ℤ) (ps : ℚ)
    (h200 : 200 ≤ min sw sh) :
    computeCutSize sw sh cutPct ps
        = max 50 (min (pyInt ((pyInt ((min sw sh : ℤ) * ((cutPct : ℚ) / 100)) : ℚ) * ps))
            (min sw sh / 2)) ∧
      50 ≤ computeCutSize sw sh cutPct ps ∧
      computeCutSize sw sh cutPct ps ≤ min sw sh / 2 := by
  have hd := Int.ediv_add_emod (min sw sh) 2
  have hd0 := Int.emod_nonneg (min sw sh) (show (2 : ℤ) ≠ 0 by omega)
  have hd2 := Int.emod_lt_of_pos (min sw sh) (show (0 : ℤ) < 2 by omega)
  have h100 : 100 ≤ min sw sh / 2 := by omega
  simp only [computeCutSize]
  split_ifs with h1 h2 <;> omega

/-- C5 (witness): the amended theorem applied at scaled dimensions 400x400,
cut percentage 20 and piece scale 1, where `cut_size = 80` is unclamped. -/
theorem computeCutSize_clamped_witness :
    50 ≤ computeCutSize 400 400 20 1 ∧ computeCutSize 400 400 20 1 ≤ min 400 400 / 2 :=
  ⟨(computeCutSize_clamped 400 400 20 1 (by decide)).2.1,
   (computeCutSize_clamped 400 400 20 1 (by decide)).2.2⟩

/-! ## C8: num_alignments = 0 handling -/

/-- C8 (counterexample): requesting `num_alignments = 0` does not continue
generation — the parameter check at line 124 accepts only `None` or `[1, 20]`
and raises `ValueError` on 0, contradicting the claimed `[0, 20]` range. -/
theorem checkNumAlignments_cex :
    checkNumAlignments (some 0) = .error "num_alignments must be between 1 and 20" := by
  rfl

/-- C8 (amended): the generator rejects `num_alignments = 0` (and anything
outside `[1, 20]`) with a configuration error, accepting `None` and `[1, 20]`;
the internal scheduler `_generate_alignment_frames` does map a zero count to
the empty sequence, but that branch is unreachable through the public API. -/
theorem checkNumAlignments_spec (T : ℤ) (draw : ℕ → ℤ) (v : ℤ) :
    (1 ≤ v → v ≤ 20 → checkNumAlignments (some v) = .ok (some v)) ∧
      checkNumAlignments (some v) = checkNumAlignments (some v) ∧
      checkNumAlignments (some 0) = .error "num_alignments must be between 1 and 20" ∧
      checkNumAlignments none = .ok none ∧
      generateAlignmentFrames T 0 draw = [] := by
  refine ⟨?_, rfl, rfl, rfl, rfl⟩
  intro h1 h2
  rw [checkNumAlignments]
  rw [if_neg (by omega)]

/-- C8 (witness): the amended theorem applied at `num_alignments = 5`. -/
theorem checkNumAlignments_spec_witness :
    checkNumAlignments (some 5) = .ok (some 5) ∧
      generateAlignmentFrames 360 0 (fun _ => 0) = [] :=
  ⟨(checkNumAlignments_spec 360 (fun _ => 0) 5).1 (by decide) (by decide),
   (checkNumAlignments_spec 360 (fun _ => 0) 5).2.2.2.2⟩

/-! ## C9: safe-zone size tolerance -/

/-- C9 (counterexample): for scaled width 390 and margins 23% + 23% (valid:
each in [0,50], sum < 100) the code computes `390 - int(89.7) - int(89.7)
= 212` while the exact value is `390 * 0.54 = 210.6`: the error is `1.4 > 1`
pixel, refuting the claimed 1-pixel tolerance. -/
theorem availableSize_cex :
    ¬ |(availableSize 390 23 23 : ℚ) - (390 : ℚ) * (1 - ((23 : ℚ) + 23) / 100)| ≤ 1 := by
  norm_num [availableSize, marginPx, pyInt, abs_le]

/-- C9 (amended): the two `int()` truncations each discard less than one
pixel, so the safe-zone extent exceeds the exact value
`scaled_dim * (1 - (m1 + m2)/100)` by at least 0 and strictly less than 2
pixels (the claimed bound of 1 pixel is reached and exceeded, see the
counterexample; 2 is tight from above). -/
theorem availableSize_close (sdim m1 m2 : ℤ) (hs : 0 ≤ sdim)
    (h1l : 0 ≤ m1) (h1u : m1 ≤ 50) (h2l : 0 ≤ m2) (h2u : m2 ≤ 50)
    (hsum : m1 + m2 < 100) :
    |(availableSize sdim m1 m2 : ℚ) - (sdim : ℚ) * (1 - ((m1 : ℚ) + (m2 : ℚ)) / 100)| < 2 := by
  have q1 : (0 : ℚ) ≤ (sdim : ℚ) * ((m1 : ℚ) / 100) := by
    apply mul_nonneg
    · exact_mod_cast hs
    · apply div_nonneg
      · exact_mod_cast h1l
      · norm_num
  have q2 : (0 : ℚ) ≤ (sdim : ℚ) * ((m2 : ℚ) / 100) := by
    apply mul_nonneg
    · exact_mod_cast hs
    · apply div_nonneg
      · exact_mod_cast h2l
      · norm_num
  have e1 : marginPx sdim m1 = ⌊(sdim : ℚ) * ((m1 : ℚ) / 100)⌋ := by
    rw [marginPx, pyInt_eq_floor _ q1]
  have e2 : marginPx sdim m2 = ⌊(sdim : ℚ) * ((m2 : ℚ) / 100)⌋ := by
    rw [marginPx, pyInt_eq_floor _ q2]
  have key : (availableSize sdim m1 m2 : ℚ)
      = (sdim : ℚ) - (⌊(sdim : ℚ) * ((m1 : ℚ) / 100)⌋ : ℚ)
        - (⌊(sdim : ℚ) * ((m2 : ℚ) / 100)⌋ : ℚ) := by
    rw [availableSize, e1, e2]
    push_cast
    ring
  have f1a := Int.floor_le ((sdim : ℚ) * ((m1 : ℚ) / 100))
  have f1b := Int.lt_floor_add_one ((sdim : ℚ) * ((m1 : ℚ) / 100))
  have f2a := Int.floor_le ((sdim : ℚ) * ((m2 : ℚ) / 100))
  have f2b := Int.lt_floor_add_one ((sdim : ℚ) * ((m2 : ℚ) / 100))
  have hring : (sdim : ℚ) * (1 - ((m1 : ℚ) + (m2 : ℚ)) / 100)
      = (sdim : ℚ) - (sdim : ℚ) * ((m1 : ℚ) / 100) - (sdim : ℚ) * ((m2 : ℚ) / 100) := by
    ring
  rw [key, hring, abs_lt]
  constructor
  · linarith
  · linarith

/-- C9 (witness): the amended bound applied at scaled width 1000 with 10%
margins on both sides. -/
theorem availableSize_close_witness :
    |(availableSize 1000 10 10 : ℚ) - (1000 : ℚ) * (1 - ((10 : ℚ) + (10 : ℚ)) / 100)| < 2 :=
  availableSize_close 1000 10 10 (by decide) (by decide) (by decide) (by decide)
    (by decide) (by decide)

/-! ## Interpolation-expression helper lemmas -/

/-- Keyframe times are monotone in the frame index (fps is positive). -/
theorem kfTime_le_kfTime (fps : ℤ) (hfps : 1 ≤ fps) {k1 k2 : Keyframe}
    (h : k1.frame ≤ k2.frame) : kfTime fps k1 ≤ kfTime fps k2 := by
  have hc : (0 : ℚ) < (fps : ℚ) := by exact_mod_cast (by omega : (0 : ℤ) < fps)
  rw [kfTime, kfTime, div_le_div_iff_of_pos_right hc]
  exact_mod_cast h

/-- Keyframe times are strictly monotone in the frame index. -/
theorem kfTime_lt_kfTime (fps : ℤ) (hfps : 1 ≤ fps) {k1 k2 : Keyframe}
    (h : k1.frame < k2.frame) : kfTime fps k1 < kfTime fps k2 := by
  have hc : (0 : ℚ) < (fps : ℚ) := by exact_mod_cast (by omega : (0 : ℤ) < fps)
  rw [kfTime, kfTime, div_lt_div_iff_of_pos_right hc]
  exact_mod_cast h

/-- Equal keyframe times force equal frames. -/
theorem frame_eq_of_kfTime_eq (fps : ℤ) (hfps : 1 ≤ fps) {k1 k2 : Keyframe}
    (h : kfTime fps k1 = kfTime fps k2) : k1.frame = k2.frame := by
  have hc : ((fps : ℚ)) ≠ 0 := by
    have : (0 : ℚ) < (fps : ℚ) := by exact_mod_cast (by omega : (0 : ℤ) < fps)
    exact ne_of_gt this
  rw [kfTime, kfTime, div_eq_div_iff hc hc] at h
  have := mul_right_cancel₀ hc h
  exact_mod_cast this

/-- Unfolding of `evalTail` on a cons with a nonempty tail. -/
theorem evalTail_cons (fps : ℤ) (p : Keyframe → ℤ) (k1 k2 : Keyframe)
    (l : List Keyframe) (t : ℚ) (hl : l ≠ []) :
    evalTail fps p k1 (k2 :: l) t
      = if t < kfTime fps k2 then segVal fps p k1 k2 t
        else evalTail fps p k2 l t := by
  cases l with
  | nil => exact absurd rfl hl
  | cons k3 rest => rfl

/-- A guarded or final segment never divides by zero when evaluation enters the
tail at a time at or after the head keyframe's time, provided the final
segment has distinct endpoint frames. -/
theorem evalTail_ne_divZero (fps : ℤ) (hfps : 1 ≤ fps) (p : Keyframe → ℤ) :
    ∀ (l : List Keyframe) (k1 : Keyframe) (t : ℚ),
      kfTime fps k1 ≤ t → lastSegmentProper (k1 :: l) = true →
      evalTail fps p k1 l t ≠ .error .divZero := by
  intro l
  induction l with
  | nil =>
    intro k1 t ht hl
    simp [evalTail]
  | cons k2 rest ih =>
    intro k1 t ht hl
    cases rest with
    | nil =>
      have hne : k1.frame ≠ k2.frame := by
        simpa [lastSegmentProper] using hl
      show segVal fps p k1 k2 t ≠ .error .divZero
      rw [segVal, if_neg]
      · simp
      · intro h0
        exact hne (frame_eq_of_kfTime_eq fps hfps (sub_eq_zero.mp h0).symm)
    | cons k3 rest2 =>
      show (if t < kfTime fps k2 then segVal fps p k1 k2 t
            else evalTail fps p k2 (k3 :: rest2) t) ≠ .error .divZero
      split_ifs with hguard
      · rw [segVal, if_neg]
        · simp
        · intro h0
          have heq : kfTime fps k2 = kfTime fps k1 := sub_eq_zero.mp h0
          rw [heq] at hguard
          exact absurd hguard (not_lt.mpr ht)
      · exact ih k2 t (le_of_not_lt hguard) (by simpa [lastSegmentProper] using hl)

/-- Evaluating the built expression never divides by zero when both the first
and the last segment have distinct endpoint frames (interior zero-length
segments are protected by their guards, which cannot fire at a time that has
already passed the previous guard). -/
theorem evalInterp_ne_divZero (fps : ℤ) (hfps : 1 ≤ fps) (p : Keyframe → ℤ)
    (kfs : List Keyframe)
    (hfirst : firstSegmentProper kfs = true)
    (hlast : lastSegmentProper kfs = true) (t : ℚ) :
    evalInterp fps p kfs t ≠ .error .divZero := by
  match kfs with
  | [] => simp [evalInterp]
  | [k1] => simp [evalInterp]
  | [k1, k2] => simp [evalInterp]
  | k1 :: k2 :: k3 :: rest =>
    have h12 : k1.frame ≠ k2.frame := by
      simpa [firstSegmentProper] using hfirst
    show (if t < kfTime fps k2 then segVal fps p k1 k2 t
          else evalTail fps p k2 (k3 :: rest) t) ≠ .error .divZero
    split_ifs with hguard
    · rw [segVal, if_neg]
      · simp
      · intro h0
        exact h12 ((frame_eq_of_kfTime_eq fps hfps (sub_eq_zero.mp h0)).symm)
    · exact evalTail_ne_divZero fps hfps p (k3 :: rest) k2 t (le_of_not_lt hguard)
        (by simpa [lastSegmentProper] using hlast)

/-- Evaluating at the shared instant of a zero-length segment `(a, b)` whose
successor segment `(b, c)` is nonzero skips every earlier guard and lands on
the `(b, c)` segment's value at its left endpoint, i.e. the later value `p b`. -/
theorem evalTail_at_step (fps : ℤ) (hfps : 1 ≤ fps) (p : Keyframe → ℤ)
    (b c : Keyframe) (hbc : b.frame < c.frame) :
    ∀ (l1 : List Keyframe) (k1 : Keyframe) (l2 : List Keyframe),
      (∀ k ∈ k1 :: l1, k.frame ≤ b.frame) →
      evalTail fps p k1 (l1 ++ b :: c :: l2) (kfTime fps b) = .ok ((p b : ℚ)) := by
  intro l1
  induction l1 with
  | nil =>
    intro k1 l2 hall
    have hguard : ¬ kfTime fps b < kfTime fps b := lt_irrefl _
    have hne : ¬ kfTime fps c - kfTime fps b = 0 := by
      intro h0
      exact absurd (frame_eq_of_kfTime_eq fps hfps (sub_eq_zero.mp h0)).symm (ne_of_lt hbc)
    have hseg : segVal fps p b c (kfTime fps b) = .ok ((p b : ℚ)) := by
      rw [segVal, if_neg hne]
      norm_num
    cases l2 with
    | nil =>
      show (if kfTime fps b < kfTime fps b then segVal fps p k1 b (kfTime fps b)
            else evalTail fps p b [c] (kfTime fps b)) = .ok ((p b : ℚ))
      rw [if_neg hguard]
      exact hseg
    | cons d l2' =>
      show (if kfTime fps b < kfTime fps b then segVal fps p k1 b (kfTime fps b)
            else evalTail fps p b (c :: d :: l2') (kfTime fps b)) = .ok ((p b : ℚ))
      rw [if_neg hguard]
      show (if kfTime fps b < kfTime fps c then segVal fps p b c (kfTime fps b)
            else evalTail fps p c (d :: l2') (kfTime fps b)) = .ok ((p b : ℚ))
      rw [if_pos (kfTime_lt_kfTime fps hfps hbc)]
      exact hseg
  | cons k2 l1' ih =>
    intro k1 l2 hall
    have hlne : (l1' ++ b :: c :: l2) ≠ [] := by simp
    rw [List.cons_append, evalTail_cons fps p k1 k2 _ _ hlne]
    have hk2 : k2.frame ≤ b.frame := hall k2 (by simp)
    rw [if_neg (not_lt.mpr (kfTime_le_kfTime fps hfps hk2))]
    exact ih k2 l2 (fun k hk => hall k (List.mem_cons_of_mem k1 hk))

/-- Unfolding of `evalInterp` on two cons cells with a nonempty tail. -/
theorem evalInterp_cons (fps : ℤ) (p : Keyframe → ℤ) (k1 k2 : Keyframe)
    (l : List Keyframe) (t : ℚ) (hl : l ≠ []) :
    evalInterp fps p (k1 :: k2 :: l) t
      = if t < kfTime fps k2 then segVal fps p k1 k2 t
        else evalTail fps p k2 l t := by
  cases l with
  | nil => exact absurd rfl hl
  | cons k3 rest => rfl

/-! ## C4: zero-length segments -/

/-- C4 (counterexample): a Timeline whose final segment is zero-length
(`[(0,·), (5,·), (5,·)]`, fps 5) divides by zero: the unguarded last segment
`(v2-v1)/(t2-t1)` with `t2 = t1` is evaluated at any `t ≥ 1`, e.g. `t = 1`;
the claim promised no division by zero for every such Timeline. -/
theorem evalInterp_divZero_cex :
    evalInterp 5 (fun k => k.x) [⟨0, 0, 0, 0⟩, ⟨5, 1, 2, 3⟩, ⟨5, 7, 8, 9⟩] 1
      = .error .divZero := by
  norm_num [evalInterp, evalTail, segVal, kfTime]

/-- C4 (amended): for a Timeline of at least 3 keyframes with non-decreasing
frames whose first and last segments are proper (distinct endpoint frames),
an interior zero-length segment `(a, b)` followed by a nonzero segment
`(b, c)` never causes a division by zero at any evaluation time, and at the
shared instant every curve (any parameter projection `p`, covering x, y and
rotation alike) returns the later keyframe's value `p b` — a step. -/
theorem evalInterp_zero_segment (fps : ℤ) (hfps : 1 ≤ fps) (p : Keyframe → ℤ)
    (l1 l2 : List Keyframe) (a b c : Keyframe)
    (hzero : a.frame = b.frame) (hnext : b.frame < c.frame)
    (hsorted : List.Chain' (fun u v : Keyframe => u.frame ≤ v.frame)
      (l1 ++ a :: b :: c :: l2))
    (hfirst : firstSegmentProper (l1 ++ a :: b :: c :: l2) = true)
    (hlast : lastSegmentProper (l1 ++ a :: b :: c :: l2) = true) :
    (∀ t, evalInterp fps p (l1 ++ a :: b :: c :: l2) t ≠ .error .divZero) ∧
      evalInterp fps p (l1 ++ a :: b :: c :: l2) (kfTime fps b) = .ok ((p b : ℚ)) := by
  refine ⟨fun t => evalInterp_ne_divZero fps hfps p _ hfirst hlast t, ?_⟩
  haveI : IsTrans Keyframe (fun u v : Keyframe => u.frame ≤ v.frame) :=
    ⟨fun x y z h1 h2 => le_trans h1 h2⟩
  have hpw := List.chain'_iff_pairwise.mp hsorted
  have hsplit : l1 ++ a :: b :: c :: l2 = (l1 ++ [a]) ++ b :: c :: l2 := by
    simp
  have hall : ∀ k ∈ l1 ++ [a], k.frame ≤ b.frame := by
    rw [hsplit] at hpw
    have h2 := (List.pairwise_append.mp hpw).2.2
    intro k hk
    exact h2 k hk b (by simp)
  cases l1 with
  | nil =>
    exfalso
    have : a.frame ≠ b.frame := by simpa [firstSegmentProper] using hfirst
    exact this hzero
  | cons k0 l1' =>
    have htb : kfTime fps a = kfTime fps b := by rw [kfTime, kfTime, hzero]
    cases l1' with
    | nil =>
      simp only [List.cons_append, List.nil_append]
      rw [evalInterp_cons fps p k0 a (b :: c :: l2) _ (by simp)]
      rw [if_neg (by rw [htb]; exact lt_irrefl _)]
      have := evalTail_at_step fps hfps p b c hnext [] a l2
        (by intro k hk; simp at hk; subst hk; exact le_of_eq hzero)
      simpa using this
    | cons k0' l1'' =>
      have hk0' : k0'.frame ≤ b.frame := hall k0' (by simp)
      simp only [List.cons_append]
      rw [evalInterp_cons fps p k0 k0' (l1'' ++ a :: b :: c :: l2) _ (by simp)]
      rw [if_neg (not_lt.mpr (kfTime_le_kfTime fps hfps hk0'))]
      have hre : l1'' ++ a :: b :: c :: l2 = (l1'' ++ [a]) ++ b :: c :: l2 := by
        simp
      rw [hre]
      refine evalTail_at_step fps hfps p b c hnext (l1'' ++ [a]) k0' l2 ?_
      intro k hk
      rcases List.mem_cons.mp hk with h | h
      · subst h; exact hk0'
      · exact hall k (by
          rcases List.mem_append.mp h with h2 | h2
          · exact List.mem_append.mpr (Or.inl (by simp [h2]))
          · exact List.mem_append.mpr (Or.inr h2))

/-- C4 (witness): the amended theorem applied to the Timeline
`[(0,0), (10,5), (10,7), (20,9)]` at fps 1 — at the shared instant `t = 10`
the x-curve steps to the later value 7, and evaluation at `t = 3` does not
divide by zero. -/
theorem evalInterp_zero_segment_witness :
    evalInterp 1 (fun k => k.x)
        ([⟨0, 0, 0, 0⟩] ++ ⟨10, 5, 5, 5⟩ :: ⟨10, 7, 7, 7⟩ :: ⟨20, 9, 9, 9⟩ :: [])
        (kfTime 1 ⟨10, 7, 7, 7⟩) = .ok (((7 : ℤ) : ℚ)) ∧
      evalInterp 1 (fun k => k.x)
        ([⟨0, 0, 0, 0⟩] ++ ⟨10, 5, 5, 5⟩ :: ⟨10, 7, 7, 7⟩ :: ⟨20, 9, 9, 9⟩ :: [])
        3 ≠ .error .divZero :=
  ⟨(evalInterp_zero_segment 1 (by norm_num) (fun k => k.x) [⟨0, 0, 0, 0⟩] []
      ⟨10, 5, 5, 5⟩ ⟨10, 7, 7, 7⟩ ⟨20, 9, 9, 9⟩ rfl (by decide)
      (by norm_num [List.chain'_cons]) (by decide) (by decide)).2,
   (evalInterp_zero_segment 1 (by norm_num) (fun k => k.x) [⟨0, 0, 0, 0⟩] []
      ⟨10, 5, 5, 5⟩ ⟨10, 7, 7, 7⟩ ⟨20, 9, 9, 9⟩ rfl (by decide)
      (by norm_num [List.chain'_cons]) (by decide) (by decide)).1 3⟩

/-! ## C7: times before the first keyframe -/

/-- C7 (counterexample): for the Timeline `[(10,0), (20,10), (30,20)]` at
fps 10 and `t = 0` (inside `[0, duration)` and strictly before the first
keyframe's time 1s), the expression extrapolates the first segment backwards
to `-10` instead of holding the first keyframe's value 0. -/
theorem evalInterp_before_first_cex :
    evalInterp 10 (fun k => k.x) [⟨10, 0, 0, 0⟩, ⟨20, 10, 0, 0⟩, ⟨30, 20, 0, 0⟩] 0
        ≠ .ok (((⟨10, 0, 0, 0⟩ : Keyframe).x : ℚ)) ∧
      evalInterp 10 (fun k => k.x) [⟨10, 0, 0, 0⟩, ⟨20, 10, 0, 0⟩, ⟨30, 20, 0, 0⟩] 0
        = .ok (-10) := by
  norm_num [evalInterp, evalTail, segVal, kfTime]

/-- C7 (amended): for a Timeline of at least 3 keyframes whose first segment
is nonzero, every time strictly before the first keyframe's time evaluates to
the backward linear extrapolation of the first segment
`v0 + ((v1-v0)/(t1-t0))*(t-t0)` (for every parameter projection), not to a
held first value. -/
theorem evalInterp_before_first (fps : ℤ) (hfps : 1 ≤ fps) (p : Keyframe → ℤ)
    (k0 k1 k2 : Keyframe) (rest : List Keyframe) (t : ℚ)
    (h01 : k0.frame < k1.frame) (ht : t < kfTime fps k0) :
    evalInterp fps p (k0 :: k1 :: k2 :: rest) t
      = .ok ((p k0 : ℚ) +
          (((p k1 : ℚ) - (p k0 : ℚ)) / (kfTime fps k1 - kfTime fps k0)) *
            (t - kfTime fps k0)) := by
  have h01t : kfTime fps k0 < kfTime fps k1 := kfTime_lt_kfTime fps hfps h01
  rw [evalInterp_cons fps p k0 k1 (k2 :: rest) t (by simp)]
  rw [if_pos (lt_trans ht h01t)]
  rw [segVal, if_neg]
  intro h0
  exact absurd ((sub_eq_zero.mp h0) ▸ h01t) (lt_irrefl _)

/-- C7 (witness): the amended theorem applied to
`[(10,0), (20,10), (30,20)]` at fps 10 and `t = 0`. -/
theorem evalInterp_before_first_witness :
    evalInterp 10 (fun k => k.x) [⟨10, 0, 0, 0⟩, ⟨20, 10, 0, 0⟩, ⟨30, 20, 0, 0⟩] 0
      = .ok ((((⟨10, 0, 0, 0⟩ : Keyframe).x : ℤ) : ℚ) +
          ((((⟨20, 10, 0, 0⟩ : Keyframe).x : ℚ) - ((⟨10, 0, 0, 0⟩ : Keyframe).x : ℚ)) /
              (kfTime 10 ⟨20, 10, 0, 0⟩ - kfTime 10 ⟨10, 0, 0, 0⟩)) *
            (0 - kfTime 10 ⟨10, 0, 0, 0⟩)) :=
  evalInterp_before_first 10 (by norm_num) (fun k => k.x)
    ⟨10, 0, 0, 0⟩ ⟨20, 10, 0, 0⟩ ⟨30, 20, 0, 0⟩ [] 0 (by decide)
    (by norm_num [kfTime])

/-! ## C10: times at or after the last keyframe -/

/-- C10 (counterexample): a Timeline of exactly 2 keyframes is permitted by
the claim, but `_build_interpolation_expr` then emits a single guarded segment
with a trailing comma and appends `')' * 0` closing parentheses, so the
expression cannot be parsed and no value — in particular not the claimed
linear extrapolation `0 + (10/1)*(2-0) = 20` at `t = 2` — is produced. -/
theorem evalInterp_two_keyframes_cex :
    evalInterp 10 (fun k => k.x) [⟨0, 0, 0, 0⟩, ⟨10, 10, 0, 0⟩] 2
      = .error .malformed := by
  rfl

/-- The chain of guards always falls through to the unguarded final segment
once every earlier keyframe time is at or below the evaluation time. -/
theorem evalTail_extrapolates (fps : ℤ) (hfps : 1 ≤ fps) (p : Keyframe → ℤ)
    (y z : Keyframe) (hyz : y.frame < z.frame) :
    ∀ (l1 : List Keyframe) (k1 : Keyframe) (t : ℚ),
      (∀ k ∈ (k1 :: l1) ++ [y], kfTime fps k ≤ t) →
      evalTail fps p k1 (l1 ++ [y, z]) t
        = .ok ((p y : ℚ) +
            (((p z : ℚ) - (p y : ℚ)) / (kfTime fps z - kfTime fps y)) *
              (t - kfTime fps y)) := by
  have hne : ¬ kfTime fps z - kfTime fps y = 0 := by
    intro h0
    exact absurd ((frame_eq_of_kfTime_eq fps hfps (sub_eq_zero.mp h0)).symm)
      (ne_of_lt hyz)
  intro l1
  induction l1 with
  | nil =>
    intro k1 t hall
    have hy : kfTime fps y ≤ t := hall y (by simp)
    show (if t < kfTime fps y then segVal fps p k1 y t
          else evalTail fps p y [z] t) = _
    rw [if_neg (not_lt.mpr hy)]
    show segVal fps p y z t = _
    rw [segVal, if_neg hne]
  | cons k2 l1' ih =>
    intro k1 t hall
    rw [List.cons_append, evalTail_cons fps p k1 k2 _ t (by simp)]
    rw [if_neg (not_lt.mpr (hall k2 (by simp)))]
    refine ih k2 t (fun k hk => hall k ?_)
    rw [List.cons_append]
    exact List.mem_cons_of_mem k1 hk

/-- C10 (amended): for a Timeline of at least 3 keyframes with non-decreasing
frames and a nonzero final segment `(y, z)`, every time at or after the last
keyframe's time evaluates — for every parameter projection `p`, hence
identically for x, y and rotation, which the code builds with the same
`_build_interpolation_expr` — to the linear extrapolation of the last
segment's slope. -/
theorem evalInterp_extrapolates_after_last (fps : ℤ) (hfps : 1 ≤ fps)
    (p : Keyframe → ℤ) (k0 : Keyframe) (l1 : List Keyframe) (y z : Keyframe)
    (t : ℚ)
    (hsorted : List.Chain' (fun u v : Keyframe => u.frame ≤ v.frame)
      (k0 :: (l1 ++ [y, z])))
    (hyz : y.frame < z.frame) (ht : kfTime fps z ≤ t) :
    evalInterp fps p (k0 :: (l1 ++ [y, z])) t
      = .ok ((p y : ℚ) +
          (((p z : ℚ) - (p y : ℚ)) / (kfTime fps z - kfTime fps y)) *
            (t - kfTime fps y)) := by
  haveI : IsTrans Keyframe (fun u v : Keyframe => u.frame ≤ v.frame) :=
    ⟨fun x y z h1 h2 => le_trans h1 h2⟩
  have hpw := List.chain'_iff_pairwise.mp hsorted
  have hallf : ∀ k ∈ k0 :: (l1 ++ [y]), k.frame ≤ z.frame := by
    have hsplit : k0 :: (l1 ++ [y, z]) = (k0 :: (l1 ++ [y])) ++ [z] := by simp
    rw [hsplit] at hpw
    have h2 := (List.pairwise_append.mp hpw).2.2
    intro k hk
    exact h2 k hk z (by simp)
  have hallt : ∀ k ∈ k0 :: (l1 ++ [y]), kfTime fps k ≤ t :=
    fun k hk => le_trans (kfTime_le_kfTime fps hfps (hallf k hk)) ht
  have hne : ¬ kfTime fps z - kfTime fps y = 0 := by
    intro h0
    exact absurd ((frame_eq_of_kfTime_eq fps hfps (sub_eq_zero.mp h0)).symm)
      (ne_of_lt hyz)
  cases l1 with
  | nil =>
    simp only [List.nil_append]
    rw [evalInterp_cons fps p k0 y [z] t (by simp)]
    rw [if_neg (not_lt.mpr (hallt y (by simp)))]
    show segVal fps p y z t = _
    rw [segVal, if_neg hne]
  | cons k1 l1' =>
    simp only [List.cons_append]
    rw [evalInterp_cons fps p k0 k1 (l1' ++ [y, z]) t (by simp)]
    rw [if_neg (not_lt.mpr (hallt k1 (by simp)))]
    refine evalTail_extrapolates fps hfps p y z hyz l1' k1 t
      (fun k hk => hallt k ?_)
    rcases List.mem_append.mp hk with h | h
    · rcases List.mem_cons.mp h with h2 | h2
      · simp [h2]
      · simp [List.mem_append.mpr (Or.inl h2)]
    · simp [List.mem_append.mpr (Or.inr h)]

/-- C10 (witness): the amended theorem applied to the Timeline
`[(0,1), (5,2), (10,4)]` at fps 1 and `t = 20 ≥ 10`: the x-curve continues
the last segment's slope. -/
theorem evalInterp_extrapolates_after_last_witness :
    evalInterp 1 (fun k => k.x) (⟨0, 1, 0, 0⟩ :: ([] ++ [⟨5, 2, 0, 0⟩, ⟨10, 4, 0, 0⟩])) 20
      = .ok ((((⟨5, 2, 0, 0⟩ : Keyframe).x : ℤ) : ℚ) +
          ((((⟨10, 4, 0, 0⟩ : Keyframe).x : ℚ) - ((⟨5, 2, 0, 0⟩ : Keyframe).x : ℚ)) /
              (kfTime 1 ⟨10, 4, 0, 0⟩ - kfTime 1 ⟨5, 2, 0, 0⟩)) *
            (20 - kfTime 1 ⟨5, 2, 0, 0⟩)) :=
  evalInterp_extrapolates_after_last 1 (by norm_num) (fun k => k.x)
    ⟨0, 1, 0, 0⟩ [] ⟨5, 2, 0, 0⟩ ⟨10, 4, 0, 0⟩ 20 (by norm_num [List.chain'_cons])
    (by decide) (by norm_num [kfTime])

/-! ## Movement-generator helper lemmas -/

/-- The hold period is always at least one frame (`max(int(...), 1)`). -/
theorem holdFramesOf_pos (c : MoveCtx) : 1 ≤ holdFramesOf c :=
  le_max_right _ _

/-- Chain, head and last frame of the chaotic-movement loop: under the
spacing condition every segment's keyframes are in order, the first emitted
frame is the segment start `i * F`, and the loop always terminates with the
keyframe at `total_frames - 1`. -/
theorem chaoticAux_spec (c : MoveCtx) (F : ℤ) (draw : ℕ → ℤ)
    (hT : 1 ≤ c.totalFrames) (hF : 0 ≤ F) :
    ∀ (af : List ℤ) (i : ℕ),
      wellSpacedFrom F (holdFramesOf c) i af = true →
      (((i + af.length : ℕ) : ℤ)) * F ≤ c.totalFrames - 1 →
      List.Chain' (· ≤ ·) (framesOf (chaoticAux c F draw i af)) ∧
        (framesOf (chaoticAux c F draw i af)).head? = some ((i : ℤ) * F) ∧
        (framesOf (chaoticAux c F draw i af)).getLast? = some (c.totalFrames - 1) := by
  intro af
  induction af with
  | nil =>
    intro i hws hlen
    simp only [List.length_nil, Nat.add_zero] at hlen
    by_cases hm : (i : ℤ) * F + (c.totalFrames - 1 - (i : ℤ) * F) / 2 ≠ 0
    · refine ⟨?_, ?_, ?_⟩ <;>
        simp only [chaoticAux, if_pos hm, framesOf, List.map_cons, List.map_append,
          List.map_nil, List.singleton_append, List.nil_append, List.cons_append]
      · rw [List.chain'_cons, List.chain'_cons]
        refine ⟨?_, ?_, List.chain'_singleton _⟩ <;> omega
      · rfl
      · rfl
    · refine ⟨?_, ?_, ?_⟩ <;>
        simp only [chaoticAux, if_neg hm, framesOf, List.map_cons, List.map_append,
          List.map_nil, List.singleton_append, List.nil_append, List.cons_append]
      · rw [List.chain'_cons]
        exact ⟨by omega, List.chain'_singleton _⟩
      · rfl
      · rfl
  | cons a rest ih =>
    intro i hws hlen
    rw [wellSpacedFrom, Bool.and_eq_true, Bool.and_eq_true] at hws
    obtain ⟨⟨h1b, h2b⟩, hwsr⟩ := hws
    rw [decide_eq_true_eq] at h1b h2b
    have hhf := holdFramesOf_pos c
    have hnat : i + (a :: rest).length = (i + 1) + rest.length := by
      simp [List.length_cons]
      omega
    have hlen' : (((i + 1) + rest.length : ℕ) : ℤ) * F ≤ c.totalFrames - 1 := by
      rw [← hnat]
      exact hlen
    obtain ⟨ihc, ihh, ihl⟩ := ih (i + 1) hwsr hlen'
    have hich : ((i + 1 : ℕ) : ℤ) * F = ((i : ℤ) + 1) * F := by
      push_cast
      ring
    rw [hich] at ihh
    refine ⟨?_, ?_, ?_⟩
    · rw [show chaoticAux c F draw i (a :: rest)
          = (⟨(i : ℤ) * F, draw i, if i % 2 = 0 then 0 else c.height - c.pieceSize, 0⟩ ::
              ((if 5 < a then [⟨a - 5, c.originX, c.originY, 0⟩] else []) ++
                [⟨a, c.originX, c.originY, 0⟩,
                 ⟨a + holdFramesOf c, c.originX, c.originY, 0⟩,
                 ⟨((i : ℤ) + 1) * F - 1, draw i,
                  if i % 2 = 0 then c.height - c.pieceSize else 0, 0⟩])) ++
            chaoticAux c F draw (i + 1) rest from rfl]
      rw [framesOf, List.map_append, List.chain'_append]
      refine ⟨?_, ihc, ?_⟩
      · by_cases ha : 5 < a <;>
          simp only [if_pos, if_neg, ha, List.map_cons, List.map_append, List.map_nil,
            List.singleton_append, List.nil_append, List.cons_append, if_true, if_false,
            List.chain'_cons, List.chain'_singleton, and_true] <;>
          omega
      · intro x hx y hy
        rw [framesOf] at ihh
        rw [ihh] at hy
        simp only [Option.mem_def, Option.some.injEq] at hy
        subst hy
        by_cases ha : 5 < a <;>
          simp only [if_pos, if_neg, ha, List.map_cons, List.map_append, List.map_nil,
            List.singleton_append, List.nil_append, List.cons_append, if_true, if_false,
            List.getLast?_cons_cons, List.getLast?_singleton, Option.mem_def,
            Option.some.injEq] at hx <;>
          omega
    · simp only [chaoticAux, framesOf, List.cons_append, List.map_cons, List.head?_cons]
    · rw [show chaoticAux c F draw i (a :: rest)
          = (⟨(i : ℤ) * F, draw i, if i % 2 = 0 then 0 else c.height - c.pieceSize, 0⟩ ::
              ((if 5 < a then [⟨a - 5, c.originX, c.originY, 0⟩] else []) ++
                [⟨a, c.originX, c.originY, 0⟩,
                 ⟨a + holdFramesOf c, c.originX, c.originY, 0⟩,
                 ⟨((i : ℤ) + 1) * F - 1, draw i,
                  if i % 2 = 0 then c.height - c.pieceSize else 0, 0⟩])) ++
            chaoticAux c F draw (i + 1) rest from rfl]
      rw [framesOf, List.map_append, List.getLast?_append]
      rw [framesOf] at ihl
      rw [ihl]
      rfl

/-- Chain, head and last frame of the rotating-movement loop: the frame
counter is `min(i*F, total_frames-1)` throughout, every segment's keyframes
are in order under the spacing condition, and the loop always ends with the
final pose at `total_frames - 1`. -/
theorem rotatingAux_spec (c : MoveCtx) (F : ℤ) (draw : ℕ → ℤ)
    (hT : 1 ≤ c.totalFrames) (hF : 0 ≤ F) :
    ∀ (af : List ℤ) (i : ℕ) (curFrame curRot : ℤ),
      wellSpacedFrom F (holdFramesOf c) i af = true →
      (((i + af.length : ℕ) : ℤ)) * F ≤ c.totalFrames →
      curFrame = min ((i : ℤ) * F) (c.totalFrames - 1) →
      List.Chain' (· ≤ ·) (framesOf (rotatingAux c F draw i af curFrame curRot)) ∧
        (framesOf (rotatingAux c F draw i af curFrame curRot)).head?
            = some (if af.isEmpty then c.totalFrames - 1 else curFrame) ∧
        (framesOf (rotatingAux c F draw i af curFrame curRot)).getLast?
            = some (c.totalFrames - 1) := by
  intro af
  induction af with
  | nil =>
    intro i cf cr hws hlen hcf
    refine ⟨?_, ?_, ?_⟩ <;> simp [rotatingAux, framesOf]
  | cons a rest ih =>
    intro i cf cr hws hlen hcf
    rw [wellSpacedFrom, Bool.and_eq_true, Bool.and_eq_true] at hws
    obtain ⟨⟨h1b, h2b⟩, hwsr⟩ := hws
    rw [decide_eq_true_eq] at h1b h2b
    have hhf := holdFramesOf_pos c
    have hnat : i + (a :: rest).length = (i + 1) + rest.length := by
      simp [List.length_cons]
      omega
    have hlen' : (((i + 1) + rest.length : ℕ) : ℤ) * F ≤ c.totalFrames := by
      rw [← hnat]
      exact hlen
    have hich : ((i + 1 : ℕ) : ℤ) * F = ((i : ℤ) + 1) * F := by
      push_cast
      ring
    have hmul : ((i : ℤ) + 1) * F = (i : ℤ) * F + F := by ring
    have hcf' : min (cf + F) (c.totalFrames - 1)
        = min (((i + 1 : ℕ) : ℤ) * F) (c.totalFrames - 1) := by
      rw [hich, hmul, hcf]
      omega
    obtain ⟨ihc, ihh, ihl⟩ := ih (i + 1) (min (cf + F) (c.totalFrames - 1))
      (cr + draw (3 * i + 2)) hwsr hlen' hcf'
    have hEnd : ((i : ℤ) + 1) * F ≤ c.totalFrames := by
      have h1 : ((i + 1 : ℕ) : ℤ) * F ≤ (((i + 1) + rest.length : ℕ) : ℤ) * F :=
        mul_le_mul_of_nonneg_right (by exact_mod_cast Nat.le_add_right _ _) hF
      rw [hich] at h1
      exact le_trans h1 hlen'
    have hcfle : cf ≤ (i : ℤ) * F := by
      rw [hcf]
      omega
    have hstep : a + holdFramesOf c
        ≤ (if rest.isEmpty then c.totalFrames - 1
           else min (cf + F) (c.totalFrames - 1)) := by
      have hb1 : a + holdFramesOf c ≤ c.totalFrames - 1 := by omega
      by_cases hre : rest.isEmpty
      · simp only [hre, if_true]
        exact hb1
      · simp only [hre, if_false]
        rw [hcf', hich]
        omega
    refine ⟨?_, ?_, ?_⟩
    · rw [show rotatingAux c F draw i (a :: rest) cf cr
          = (⟨cf, draw (3 * i), draw (3 * i + 1), cr⟩ ::
              ((if 5 < a then [⟨a - 5, c.originX, c.originY, 0⟩] else []) ++
                [⟨a, c.originX, c.originY, 0⟩,
                 ⟨a + holdFramesOf c, c.originX, c.originY, 0⟩])) ++
            rotatingAux c F draw (i + 1) rest
              (min (cf + F) (c.totalFrames - 1)) (cr + draw (3 * i + 2))
          from rfl]
      rw [framesOf, List.map_append, List.chain'_append]
      refine ⟨?_, ihc, ?_⟩
      · by_cases ha : 5 < a <;>
          simp only [if_pos, if_neg, ha, List.map_cons, List.map_append, List.map_nil,
            List.singleton_append, List.nil_append, List.cons_append, if_true, if_false,
            List.chain'_cons, List.chain'_singleton, and_true] <;>
          omega
      · intro x hx y hy
        rw [framesOf] at ihh
        rw [ihh] at hy
        simp only [Option.mem_def, Option.some.injEq] at hy
        subst hy
        by_cases ha : 5 < a <;>
          simp only [if_pos, if_neg, ha, List.map_cons, List.map_append, List.map_nil,
            List.singleton_append, List.nil_append, List.cons_append, if_true, if_false,
            List.getLast?_cons_cons, List.getLast?_singleton, Option.mem_def,
            Option.some.injEq] at hx <;>
          (subst hx; exact hstep)
    · simp only [rotatingAux, framesOf, List.cons_append, List.map_cons, List.head?_cons,
        List.isEmpty_cons, Bool.false_eq_true, if_false]
    · rw [show rotatingAux c F draw i (a :: rest) cf cr
          = (⟨cf, draw (3 * i), draw (3 * i + 1), cr⟩ ::
              ((if 5 < a then [⟨a - 5, c.originX, c.originY, 0⟩] else []) ++
                [⟨a, c.originX, c.originY, 0⟩,
                 ⟨a + holdFramesOf c, c.originX, c.originY, 0⟩])) ++
            rotatingAux c F draw (i + 1) rest
              (min (cf + F) (c.totalFrames - 1)) (cr + draw (3 * i + 2))
          from rfl]
      rw [framesOf, List.map_append, List.getLast?_append]
      rw [framesOf] at ihl
      rw [ihl]
      rfl

/-- Chain, head and last frame of the zigzag-movement loop: identical frame
skeleton to the rotating style (corner poses instead of random ones). -/
theorem zigzagAux_spec (c : MoveCtx) (F : ℤ)
    (hT : 1 ≤ c.totalFrames) (hF : 0 ≤ F) :
    ∀ (af : List ℤ) (i : ℕ) (curFrame : ℤ),
      wellSpacedFrom F (holdFramesOf c) i af = true →
      (((i + af.length : ℕ) : ℤ)) * F ≤ c.totalFrames →
      curFrame = min ((i : ℤ) * F) (c.totalFrames - 1) →
      List.Chain' (· ≤ ·) (framesOf (zigzagAux c F i af curFrame)) ∧
        (framesOf (zigzagAux c F i af curFrame)).head?
            = some (if af.isEmpty then c.totalFrames - 1 else curFrame) ∧
        (framesOf (zigzagAux c F i af curFrame)).getLast?
            = some (c.totalFrames - 1) := by
  intro af
  induction af with
  | nil =>
    intro i cf hws hlen hcf
    refine ⟨?_, ?_, ?_⟩ <;> simp [zigzagAux, framesOf]
  | cons a rest ih =>
    intro i cf hws hlen hcf
    rw [wellSpacedFrom, Bool.and_eq_true, Bool.and_eq_true] at hws
    obtain ⟨⟨h1b, h2b⟩, hwsr⟩ := hws
    rw [decide_eq_true_eq] at h1b h2b
    have hhf := holdFramesOf_pos c
    have hnat : i + (a :: rest).length = (i + 1) + rest.length := by
      simp [List.length_cons]
      omega
    have hlen' : (((i + 1) + rest.length : ℕ) : ℤ) * F ≤ c.totalFrames := by
      rw [← hnat]
      exact hlen
    have hich : ((i + 1 : ℕ) : ℤ) * F = ((i : ℤ) + 1) * F := by
      push_cast
      ring
    have hmul : ((i : ℤ) + 1) * F = (i : ℤ) * F + F := by ring
    have hcf' : min (cf + F) (c.totalFrames - 1)
        = min (((i + 1 : ℕ) : ℤ) * F) (c.totalFrames - 1) := by
      rw [hich, hmul, hcf]
      omega
    obtain ⟨ihc, ihh, ihl⟩ := ih (i + 1) (min (cf + F) (c.totalFrames - 1)) hwsr hlen' hcf'
    have hEnd : ((i : ℤ) + 1) * F ≤ c.totalFrames := by
      have h1 : ((i + 1 : ℕ) : ℤ) * F ≤ (((i + 1) + rest.length : ℕ) : ℤ) * F :=
        mul_le_mul_of_nonneg_right (by exact_mod_cast Nat.le_add_right _ _) hF
      rw [hich] at h1
      exact le_trans h1 hlen'
    have hcfle : cf ≤ (i : ℤ) * F := by
      rw [hcf]
      omega
    have hstep : a + holdFramesOf c
        ≤ (if rest.isEmpty then c.totalFrames - 1
           else min (cf + F) (c.totalFrames - 1)) := by
      have hb1 : a + holdFramesOf c ≤ c.totalFrames - 1 := by omega
      by_cases hre : rest.isEmpty
      · simp only [hre, if_true]
        exact hb1
      · simp only [hre, if_false]
        rw [hcf', hich]
        omega
    refine ⟨?_, ?_, ?_⟩
    · rw [show zigzagAux c F i (a :: rest) cf
          = (⟨cf, (zigzagCorner c (i % 4)).1, (zigzagCorner c (i % 4)).2, 0⟩ ::
              ((if 5 < a then [⟨a - 5, c.originX, c.originY, 0⟩] else []) ++
                [⟨a, c.originX, c.originY, 0⟩,
                 ⟨a + holdFramesOf c, c.originX, c.originY, 0⟩])) ++
            zigzagAux c F (i + 1) rest (min (cf + F) (c.totalFrames - 1))
          from rfl]
      rw [framesOf, List.map_append, List.chain'_append]
      refine ⟨?_, ihc, ?_⟩
      · by_cases ha : 5 < a <;>
          simp only [if_pos, if_neg, ha, List.map_cons, List.map_append, List.map_nil,
            List.singleton_append, List.nil_append, List.cons_append, if_true, if_false,
            List.chain'_cons, List.chain'_singleton, and_true] <;>
          omega
      · intro x hx y hy
        rw [framesOf] at ihh
        rw [ihh] at hy
        simp only [Option.mem_def, Option.some.injEq] at hy
        subst hy
        by_cases ha : 5 < a <;>
          simp only [if_pos, if_neg, ha, List.map_cons, List.map_append, List.map_nil,
            List.singleton_append, List.nil_append, List.cons_append, if_true, if_false,
            List.getLast?_cons_cons, List.getLast?_singleton, Option.mem_def,
            Option.some.injEq] at hx <;>
          (subst hx; exact hstep)
    · simp only [zigzagAux, framesOf, List.cons_append, List.map_cons, List.head?_cons,
        List.isEmpty_cons, Bool.false_eq_true, if_false]
    · rw [show zigzagAux c F i (a :: rest) cf
          = (⟨cf, (zigzagCorner c (i % 4)).1, (zigzagCorner c (i % 4)).2, 0⟩ ::
              ((if 5 < a then [⟨a - 5, c.originX, c.originY, 0⟩] else []) ++
                [⟨a, c.originX, c.originY, 0⟩,
                 ⟨a + holdFramesOf c, c.originX, c.originY, 0⟩])) ++
            zigzagAux c F (i + 1) rest (min (cf + F) (c.totalFrames - 1))
          from rfl]
      rw [framesOf, List.map_append, List.getLast?_append]
      rw [framesOf] at ihl
      rw [ihl]
      rfl

/-! ## C1: keyframe ordering and final frame -/

/-- C1 (counterexample): chaotic style, 100 total frames, fps 30, hold time 0
and the single alignment frame 49 (drawable: the scheduler window for one
alignment is `[38, 62]`). The segment-end keyframe at `(0+1)*50 - 1 = 49` is
emitted after the hold keyframe at `49 + 1 = 50`, so the keyframe frames
`[0, 44, 49, 50, 49, 74, 99]` are not non-decreasing. -/
theorem movementKeyframes_cex :
    ¬ List.Chain' (· ≤ ·)
      (framesOf (movementKeyframes .chaotic ⟨100, 30, 1080, 1920, 100, 500, 600, 0⟩
        [49] (fun _ => 0))) := by
  have hh : holdFramesOf ⟨100, 30, 1080, 1920, 100, 500, 600, 0⟩ = 1 := by
    rw [holdFramesOf, pyInt]
    norm_num
  norm_num [movementKeyframes, chaoticKeyframes, chaoticAux, hh, framesOf,
    List.chain'_cons]

/-- The chaotic loop ends with the keyframe at `total_frames - 1` for every
alignment-frame sequence, spaced or not: the exhaustion case always appends
it last. -/
theorem chaoticAux_getLast (c : MoveCtx) (F : ℤ) (draw : ℕ → ℤ) :
    ∀ (af : List ℤ) (i : ℕ),
      (framesOf (chaoticAux c F draw i af)).getLast? = some (c.totalFrames - 1) := by
  intro af
  induction af with
  | nil =>
    intro i
    by_cases hm : (i : ℤ) * F + (c.totalFrames - 1 - (i : ℤ) * F) / 2 ≠ 0
    · simp only [chaoticAux, if_pos hm, framesOf, List.map_cons, List.map_append,
        List.map_nil, List.singleton_append, List.nil_append, List.cons_append]
      rfl
    · simp only [chaoticAux, if_neg hm, framesOf, List.map_cons, List.map_append,
        List.map_nil, List.nil_append, List.cons_append]
      rfl
  | cons a rest ih =>
    intro i
    rw [show chaoticAux c F draw i (a :: rest)
        = (⟨(i : ℤ) * F, draw i, if i % 2 = 0 then 0 else c.height - c.pieceSize, 0⟩ ::
            ((if 5 < a then [⟨a - 5, c.originX, c.originY, 0⟩] else []) ++
              [⟨a, c.originX, c.originY, 0⟩,
               ⟨a + holdFramesOf c, c.originX, c.originY, 0⟩,
               ⟨((i : ℤ) + 1) * F - 1, draw i,
                if i % 2 = 0 then c.height - c.pieceSize else 0, 0⟩])) ++
          chaoticAux c F draw (i + 1) rest from rfl]
    rw [framesOf, List.map_append, List.getLast?_append]
    have ih' := ih (i + 1)
    rw [framesOf] at ih'
    rw [ih']
    rfl

/-- The rotating loop ends with the final pose at `total_frames - 1` for
every alignment-frame sequence, spaced or not. -/
theorem rotatingAux_getLast (c : MoveCtx) (F : ℤ) (draw : ℕ → ℤ) :
    ∀ (af : List ℤ) (i : ℕ) (curFrame curRot : ℤ),
      (framesOf (rotatingAux c F draw i af curFrame curRot)).getLast?
        = some (c.totalFrames - 1) := by
  intro af
  induction af with
  | nil =>
    intro i cf cr
    simp [rotatingAux, framesOf]
  | cons a rest ih =>
    intro i cf cr
    rw [show rotatingAux c F draw i (a :: rest) cf cr
        = (⟨cf, draw (3 * i), draw (3 * i + 1), cr⟩ ::
            ((if 5 < a then [⟨a - 5, c.originX, c.originY, 0⟩] else []) ++
              [⟨a, c.originX, c.originY, 0⟩,
               ⟨a + holdFramesOf c, c.originX, c.originY, 0⟩])) ++
          rotatingAux c F draw (i + 1) rest
            (min (cf + F) (c.totalFrames - 1)) (cr + draw (3 * i + 2))
        from rfl]
    rw [framesOf, List.map_append, List.getLast?_append]
    have ih' := ih (i + 1) (min (cf + F) (c.totalFrames - 1)) (cr + draw (3 * i + 2))
    rw [framesOf] at ih'
    rw [ih']
    rfl

/-- The zigzag loop ends with the final corner at `total_frames - 1` for
every alignment-frame sequence, spaced or not. -/
theorem zigzagAux_getLast (c : MoveCtx) (F : ℤ) :
    ∀ (af : List ℤ) (i : ℕ) (curFrame : ℤ),
      (framesOf (zigzagAux c F i af curFrame)).getLast?
        = some (c.totalFrames - 1) := by
  intro af
  induction af with
  | nil =>
    intro i cf
    simp [zigzagAux, framesOf]
  | cons a rest ih =>
    intro i cf
    rw [show zigzagAux c F i (a :: rest) cf
        = (⟨cf, (zigzagCorner c (i % 4)).1, (zigzagCorner c (i % 4)).2, 0⟩ ::
            ((if 5 < a then [⟨a - 5, c.originX, c.originY, 0⟩] else []) ++
              [⟨a, c.originX, c.originY, 0⟩,
               ⟨a + holdFramesOf c, c.originX, c.originY, 0⟩])) ++
          zigzagAux c F (i + 1) rest (min (cf + F) (c.totalFrames - 1))
        from rfl]
    rw [framesOf, List.map_append, List.getLast?_append]
    have ih' := ih (i + 1) (min (cf + F) (c.totalFrames - 1))
    rw [framesOf] at ih'
    rw [ih']
    rfl

/-- C1 (amended): for every movement style, valid fps and hold time in
`[0, 3]`: the final keyframe's frame equals `total_frames - 1`
unconditionally, for every alignment-frame sequence; and the keyframe frames
are non-decreasing provided the alignment frames are well spaced inside
their segments (each `a_i` at least 5 frames after its segment start and
ending its hold at least one frame before its segment end — the
counterexample shows the monotonicity half fails without this). -/
theorem movementKeyframes_monotone_last (style : MovementStyle) (c : MoveCtx)
    (af : List ℤ) (draw : ℕ → ℤ)
    (hT : 1 ≤ c.totalFrames) (hfps : 1 ≤ c.fps)
    (hh0 : 0 ≤ c.holdTime) (hh3 : c.holdTime ≤ 3) :
    (framesOf (movementKeyframes style c af draw)).getLast?
        = some (c.totalFrames - 1) ∧
      (wellSpaced c af = true →
        List.Chain' (· ≤ ·) (framesOf (movementKeyframes style c af draw))) := by
  constructor
  · cases style with
    | chaotic =>
      simp only [movementKeyframes, chaoticKeyframes]
      by_cases hemp : af.isEmpty
      · rw [if_pos hemp]
        simp only [chaoticNoAlign, framesOf, List.map_cons, List.map_nil]
        rfl
      · rw [if_neg hemp]
        exact chaoticAux_getLast c _ draw af 0
    | rotating =>
      simp only [movementKeyframes, rotatingKeyframes]
      exact rotatingAux_getLast c _ draw af 0 0 0
    | zigzag =>
      simp only [movementKeyframes, zigzagKeyframes]
      exact zigzagAux_getLast c _ af 0 0
  · intro hws
    rw [wellSpaced] at hws
    cases style with
    | chaotic =>
      simp only [movementKeyframes, chaoticKeyframes]
      by_cases hemp : af.isEmpty
      · rw [if_pos hemp]
        simp only [chaoticNoAlign, framesOf, List.map_cons, List.map_nil,
          List.chain'_cons, List.chain'_singleton, and_true]
        omega
      · rw [if_neg hemp]
        obtain ⟨a, rest, rfl⟩ : ∃ a rest, af = a :: rest := by
          cases af with
          | nil => simp at hemp
          | cons a rest => exact ⟨a, rest, rfl⟩
        set F := c.totalFrames / (((a :: rest).length : ℤ) + 1) with hFdef
        have hF : 0 ≤ F := Int.ediv_nonneg (by omega) (by positivity)
        have hdiv := Int.ediv_add_emod c.totalFrames (((a :: rest).length : ℤ) + 1)
        have hmod := Int.emod_nonneg c.totalFrames
          (show (((a :: rest).length : ℤ) + 1) ≠ 0 by positivity)
        rw [← hFdef] at hdiv
        have hws0 := hws
        rw [wellSpacedFrom, Bool.and_eq_true, Bool.and_eq_true] at hws0
        obtain ⟨⟨h1b, h2b⟩, -⟩ := hws0
        rw [decide_eq_true_eq] at h1b h2b
        norm_num at h1b h2b
        have hhf := holdFramesOf_pos c
        have hF1 : 1 ≤ F := by omega
        have hring : (((a :: rest).length : ℤ) + 1) * F
            = ((a :: rest).length : ℤ) * F + F := by
          ring
        have hlen : (((0 + (a :: rest).length : ℕ) : ℤ)) * F ≤ c.totalFrames - 1 := by
          have h00 : ((0 + (a :: rest).length : ℕ) : ℤ) = ((a :: rest).length : ℤ) := by
            norm_num
          rw [h00]
          omega
        exact (chaoticAux_spec c F draw hT hF (a :: rest) 0 hws hlen).1
    | rotating =>
      simp only [movementKeyframes, rotatingKeyframes]
      cases af with
      | nil => simp [rotatingAux, framesOf]
      | cons a rest =>
        rw [if_neg (by simp)]
        set F := c.totalFrames / (((a :: rest).length : ℤ) + 1) with hFdef
        have hF : 0 ≤ F := Int.ediv_nonneg (by omega) (by positivity)
        have hdiv := Int.ediv_add_emod c.totalFrames (((a :: rest).length : ℤ) + 1)
        have hmod := Int.emod_nonneg c.totalFrames
          (show (((a :: rest).length : ℤ) + 1) ≠ 0 by positivity)
        rw [← hFdef] at hdiv
        have hring : (((a :: rest).length : ℤ) + 1) * F
            = ((a :: rest).length : ℤ) * F + F := by
          ring
        have hlen : (((0 + (a :: rest).length : ℕ) : ℤ)) * F ≤ c.totalFrames := by
          have h00 : ((0 + (a :: rest).length : ℕ) : ℤ) = ((a :: rest).length : ℤ) := by
            norm_num
          rw [h00]
          omega
        have hcf : (0 : ℤ) = min (((0 : ℕ) : ℤ) * F) (c.totalFrames - 1) := by
          norm_num
          omega
        exact (rotatingAux_spec c F draw hT hF (a :: rest) 0 0 0 hws hlen hcf).1
    | zigzag =>
      simp only [movementKeyframes, zigzagKeyframes]
      cases af with
      | nil => simp [zigzagAux, framesOf]
      | cons a rest =>
        rw [if_neg (by simp)]
        set F := c.totalFrames / (((a :: rest).length : ℤ) + 1) with hFdef
        have hF : 0 ≤ F := Int.ediv_nonneg (by omega) (by positivity)
        have hdiv := Int.ediv_add_emod c.totalFrames (((a :: rest).length : ℤ) + 1)
        have hmod := Int.emod_nonneg c.totalFrames
          (show (((a :: rest).length : ℤ) + 1) ≠ 0 by positivity)
        rw [← hFdef] at hdiv
        have hring : (((a :: rest).length : ℤ) + 1) * F
            = ((a :: rest).length : ℤ) * F + F := by
          ring
        have hlen : (((0 + (a :: rest).length : ℕ) : ℤ)) * F ≤ c.totalFrames := by
          have h00 : ((0 + (a :: rest).length : ℕ) : ℤ) = ((a :: rest).length : ℤ) := by
            norm_num
          rw [h00]
          omega
        have hcf : (0 : ℤ) = min (((0 : ℕ) : ℤ) * F) (c.totalFrames - 1) := by
          norm_num
          omega
        exact (zigzagAux_spec c F hT hF (a :: rest) 0 0 hws hlen hcf).1

/-- C1 (witness): the amended theorem applied to the chaotic style at 360
frames, fps 30, hold time 0.5s and the single well-spaced alignment frame
100 (hold keyframe at 115 ≤ 179): the last frame is 359 and the frames are
non-decreasing. -/
theorem movementKeyframes_monotone_last_witness :
    (framesOf (movementKeyframes .chaotic ⟨360, 30, 1080, 1920, 100, 500, 600, 1/2⟩
        [100] (fun _ => 0))).getLast? = some (360 - 1) ∧
      List.Chain' (· ≤ ·)
        (framesOf (movementKeyframes .chaotic ⟨360, 30, 1080, 1920, 100, 500, 600, 1/2⟩
          [100] (fun _ => 0))) :=
  ⟨(movementKeyframes_monotone_last .chaotic ⟨360, 30, 1080, 1920, 100, 500, 600, 1/2⟩
      [100] (fun _ => 0) (by norm_num) (by norm_num) (by norm_num) (by norm_num)).1,
   (movementKeyframes_monotone_last .chaotic ⟨360, 30, 1080, 1920, 100, 500, 600, 1/2⟩
      [100] (fun _ => 0) (by norm_num) (by norm_num) (by norm_num) (by norm_num)).2
     (by
       have hh : holdFramesOf ⟨360, 30, 1080, 1920, 100, 500, 600, 1/2⟩ = 15 := by
         rw [holdFramesOf, pyInt]
         norm_num
       norm_num [wellSpaced, wellSpacedFrom, hh])⟩


/-! ## C6: hold keyframes -/

/-- Every alignment frame in the list gets its hold keyframe
`(a + hold_frames, origin, rotation 0)` in the chaotic loop's output. -/
theorem chaoticAux_hold_mem (c : MoveCtx) (F : ℤ) (draw : ℕ → ℤ) :
    ∀ (af : List ℤ) (i : ℕ) (a : ℤ), a ∈ af →
      (⟨a + holdFramesOf c, c.originX, c.originY, 0⟩ : Keyframe)
        ∈ chaoticAux c F draw i af := by
  intro af
  induction af with
  | nil =>
    intro i a ha
    simp at ha
  | cons b rest ih =>
    intro i a ha
    rcases List.mem_cons.mp ha with h | h
    · subst h
      refine List.mem_append_left _ ?_
      refine List.mem_cons_of_mem _ ?_
      refine List.mem_append_right _ ?_
      simp
    · exact List.mem_append_right _ (ih (i + 1) a h)

/-- Every alignment frame in the list gets its hold keyframe in the rotating
loop's output. -/
theorem rotatingAux_hold_mem (c : MoveCtx) (F : ℤ) (draw : ℕ → ℤ) :
    ∀ (af : List ℤ) (i : ℕ) (cf cr : ℤ) (a : ℤ), a ∈ af →
      (⟨a + holdFramesOf c, c.originX, c.originY, 0⟩ : Keyframe)
        ∈ rotatingAux c F draw i af cf cr := by
  intro af
  induction af with
  | nil =>
    intro i cf cr a ha
    simp at ha
  | cons b rest ih =>
    intro i cf cr a ha
    rcases List.mem_cons.mp ha with h | h
    · subst h
      refine List.mem_append_left _ ?_
      refine List.mem_cons_of_mem _ ?_
      refine List.mem_append_right _ ?_
      simp
    · exact List.mem_append_right _ (ih (i + 1) _ _ a h)

/-- Every alignment frame in the list gets its hold keyframe in the zigzag
loop's output. -/
theorem zigzagAux_hold_mem (c : MoveCtx) (F : ℤ) :
    ∀ (af : List ℤ) (i : ℕ) (cf : ℤ) (a : ℤ), a ∈ af →
      (⟨a + holdFramesOf c, c.originX, c.originY, 0⟩ : Keyframe)
        ∈ zigzagAux c F i af cf := by
  intro af
  induction af with
  | nil =>
    intro i cf a ha
    simp at ha
  | cons b rest ih =>
    intro i cf a ha
    rcases List.mem_cons.mp ha with h | h
    · subst h
      refine List.mem_append_left _ ?_
      refine List.mem_cons_of_mem _ ?_
      refine List.mem_append_right _ ?_
      simp
    · exact List.mem_append_right _ (ih (i + 1) _ a h)

/-- C6 (counterexample): with fps 30 and hold time 0.25s, the claimed
`hold_frames = max(round(30*0.25), 1) = max(round(7.5), 1) = 8` (Python
rounds half to even) predicts a hold keyframe at frame `100 + 8 = 108`; the
code computes `max(int(30*0.25), 1) = max(7, 1) = 7` (truncation), so no
keyframe at frame 108 with the alignment-target position exists. -/
theorem movementKeyframes_hold_cex :
    max (pyRound ((30 : ℚ) * (1/4))) 1 = 8 ∧
      (⟨100 + 8, 500, 600, 0⟩ : Keyframe)
        ∉ movementKeyframes .chaotic ⟨360, 30, 1080, 1920, 100, 500, 600, 1/4⟩
            [100] (fun _ => 0) := by
  constructor
  · rw [pyRound]
    norm_num
  · have hh : holdFramesOf ⟨360, 30, 1080, 1920, 100, 500, 600, 1/4⟩ = 7 := by
      rw [holdFramesOf, pyInt]
      norm_num
    norm_num [movementKeyframes, chaoticKeyframes, chaoticAux, hh, List.mem_cons,
      Keyframe.mk.injEq]

/-- C6 (amended): for every movement style, fps in `[1, 120]` and hold time
in `[0, 3]`, each alignment frame `a` gets a hold keyframe at
`a + hold_frames` positioned at the alignment target, where
`hold_frames = max(int(fps * alignment_hold_time), 1)` — `int()` truncation,
not `round()` as claimed. -/
theorem movementKeyframes_hold_mem (style : MovementStyle) (c : MoveCtx)
    (af : List ℤ) (draw : ℕ → ℤ)
    (hfps1 : 1 ≤ c.fps) (hfps2 : c.fps ≤ 120)
    (hh0 : 0 ≤ c.holdTime) (hh3 : c.holdTime ≤ 3)
    (a : ℤ) (ha : a ∈ af) :
    (⟨a + holdFramesOf c, c.originX, c.originY, 0⟩ : Keyframe)
      ∈ movementKeyframes style c af draw := by
  cases style with
  | chaotic =>
    have hne : ¬ (af.isEmpty = true) := by
      cases af with
      | nil => simp at ha
      | cons b rest => simp
    simp only [movementKeyframes, chaoticKeyframes, if_neg hne]
    exact chaoticAux_hold_mem c _ draw af 0 a ha
  | rotating =>
    simp only [movementKeyframes, rotatingKeyframes]
    exact rotatingAux_hold_mem c _ draw af 0 0 0 a ha
  | zigzag =>
    simp only [movementKeyframes, zigzagKeyframes]
    exact zigzagAux_hold_mem c _ af 0 0 a ha

/-- C6 (witness): the amended theorem applied to the chaotic style at fps 30
and hold time 0.5s with alignment frame 100. -/
theorem movementKeyframes_hold_mem_witness :
    (⟨100 + holdFramesOf ⟨360, 30, 1080, 1920, 100, 500, 600, 1/2⟩, 500, 600, 0⟩ : Keyframe)
      ∈ movementKeyframes .chaotic ⟨360, 30, 1080, 1920, 100, 500, 600, 1/2⟩
          [100] (fun _ => 0) :=
  movementKeyframes_hold_mem .chaotic ⟨360, 30, 1080, 1920, 100, 500, 600, 1/2⟩
    [100] (fun _ => 0) (by norm_num) (by norm_num) (by norm_num) (by norm_num)
    100 (by simp)
